import Mathlib

/-!
Verification of the DiceForge sampling kernel (`include/diceforge_core.h`).

The generator layer is modelled with exact rational arithmetic for the
C++ `real_t` values and with natural numbers for the unsigned raw draws.
A concrete generator of an unsigned type `T` of bit width `w` produces raw
values in `[0, 2^w - 1]`; the rejection loops of `next_unit` and
`next_in_crange` are modelled over an explicit finite list of raw draws,
returning `none` when the list is exhausted before the loop accepts a value.
Unsigned `T` arithmetic (`max - min + 1`) is reduced modulo `2^w`.
-/

namespace DiceForge

/-- One pass of the `next_unit` rejection loop: divide the raw draw by the
maximum representable value of `T` and accept the quotient unless it equals 1.
`Tmax` is `std::numeric_limits<T>::max()`. -/
def nextUnitFrom (Tmax : ℕ) : List ℕ → Option ℚ
  | [] => none
  | g :: gs =>
      if (g : ℚ) / (Tmax : ℚ) = 1 then nextUnitFrom Tmax gs
      else some ((g : ℚ) / (Tmax : ℚ))

/-- `max - min + 1` as computed in the unsigned type `T` of bit width `w`
(the sum wraps to 0 when the range covers all of `T`). -/
def rangeSize (w mn mx : ℕ) : ℕ := (mx - mn + 1) % 2 ^ w

/-- `next_in_range(min, max)`: `floor(next_unit() * (max - min + 1)) + min`,
with the factor `max - min + 1` computed in `T` (width `w`). -/
def nextInRangeFrom (w mn mx : ℕ) (draws : List ℕ) : Option ℤ :=
  (nextUnitFrom (2 ^ w - 1) draws).map
    (fun u => ⌊u * (rangeSize w mn mx : ℚ)⌋ + (mn : ℤ))

/-- The `next_in_crange` rejection loop over the raw draw stream: each
iteration first runs the inner `next_unit` loop (skipping draws whose
quotient is 1), then scales into `[mn, mx]` and rejects a result equal
to `mx`. -/
def nextInCrangeFrom (Tmax : ℕ) (mn mx : ℚ) : List ℕ → Option ℚ
  | [] => none
  | g :: gs =>
      if (g : ℚ) / (Tmax : ℚ) = 1 then nextInCrangeFrom Tmax mn mx gs
      else
        if (mx - mn) * ((g : ℚ) / (Tmax : ℚ)) + mn = mx then
          nextInCrangeFrom Tmax mn mx gs
        else some ((mx - mn) * ((g : ℚ) / (Tmax : ℚ)) + mn)

/-- The cumulative-weight array built by the weighted `choice`: starting
from `prev = 0`, each cell is `prev + weight` and becomes the new `prev`. -/
def cumulFrom (prev : ℚ) : List ℚ → List ℚ
  | [] => []
  | x :: xs => (prev + x) :: cumulFrom (prev + x) xs

/-- The cumulative weights of a weight list (prefix sums). -/
def cumulative (ws : List ℚ) : List ℚ := cumulFrom 0 ws

/-- `cumulative_weights[last - first - 1]`, the total weight used to scale
the unit draw. -/
def totalWeight (ws : List ℚ) : ℚ := (cumulative ws).getD (ws.length - 1) 0

/-- `std::upper_bound` on the cumulative array, as in the libstdc++
specification: repeatedly halve the search window `[base, base + count)`,
moving past the probe when the probed value is not greater than `val`. -/
def upperBoundGo (arr : List ℚ) (val : ℚ) (base count : ℕ) : ℕ :=
  if count = 0 then base
  else
    if val < arr.getD (base + count / 2) 0 then upperBoundGo arr val base (count / 2)
    else upperBoundGo arr val (base + count / 2 + 1) (count - count / 2 - 1)
termination_by count
decreasing_by
  · exact Nat.div_lt_self (Nat.pos_of_ne_zero (by assumption)) (by norm_num)
  · exact Nat.sub_lt (Nat.pos_of_ne_zero (by assumption)) (Nat.succ_pos _)

/-- `std::upper_bound(cw, cw + len, val) - cw`: the index returned by the
binary search over the whole cumulative array. -/
def upperBound (arr : List ℚ) (val : ℚ) : ℕ := upperBoundGo arr val 0 arr.length

/-- The index that the weighted `choice` selects for a given unit draw. -/
def selectedIndex (ws : List ℚ) (unit : ℚ) : ℕ :=
  upperBound (cumulative ws) (unit * totalWeight ws)

/-- The weighted `choice(first, last, weights_first, weights_last)`:
argument validation, then selection through the cumulative array.
The `Except` layer carries the two `std::invalid_argument` throws; the
inner `Option` is the element access `*(first + index)`, which is `none`
exactly when the index is out of bounds (undefined behavior in C++). -/
def choiceWeighted (seq : List α) (ws : List ℚ) (unit : ℚ) :
    Except String (Option α) :=
  if seq.length ≠ ws.length then
    Except.error "Lengths of sequence and weight sequence must be equal!"
  else if seq.length = 0 then
    Except.error "Sequence must have non-zero length!"
  else
    Except.ok (seq.get? (selectedIndex ws unit))

/-- Spec-side description of upper-bound selection: the first index whose
cumulative weight strictly exceeds the draw (the list length if none does). -/
def firstExceed (cw : List ℚ) (u : ℚ) : ℕ :=
  match cw with
  | [] => 0
  | c :: cs => if u < c then 0 else firstExceed cs u + 1

/-- The unweighted `choice(first, last)`:
`*(first + next_in_range(0, last - first - 1))`.  The argument
`last - first - 1` is converted to the unsigned type `T` of width `w`,
so for an empty sequence it becomes `2 ^ w - 1`.  The outer `Option` is
termination of the `next_unit` loop; the inner `Option` is the element
access, `none` exactly when the index is out of bounds (undefined
behavior in C++). -/
def choiceUnweightedFrom (w : ℕ) (seq : List α) (draws : List ℕ) :
    Option (Option α) :=
  (nextInRangeFrom w 0 ((seq.length + (2 ^ w - 1)) % 2 ^ w) draws).map
    (fun idx => seq.get? idx.toNat)

/-- `shuffle_array`: the pool `v` starts as a copy of the input; at each
step the drawn index selects the element written to the next output slot,
and that element is erased from the pool.  The draw list holds the values
of `next_in_range(0, len - i - 1)`; the result is `none` if a drawn index
is out of bounds of the pool (undefined behavior in C++) or if the draw
list has the wrong length. -/
def shuffleArray : List α → List ℕ → Option (List α)
  | v, [] => if v.isEmpty then some [] else none
  | v, d :: ds =>
      match v.get? d with
      | some a => (shuffleArray (v.eraseIdx d) ds).map (fun out => a :: out)
      | none => none

/-- One iteration of the inner statements of `BigInt128::square` for a
pair `(i, j)`: `product[i+j] += data[i] * data[j]` followed by
`product[i+j+1] += product[i+j] >> 32`, in `uint64_t` arithmetic. -/
def sqStep (d : List ℕ) (p : List ℕ) (ij : ℕ × ℕ) : List ℕ :=
  let v := (p.getD (ij.1 + ij.2) 0 + d.getD ij.1 0 * d.getD ij.2 0) % 2 ^ 64
  let q := p.set (ij.1 + ij.2) v
  q.set (ij.1 + ij.2 + 1) ((q.getD (ij.1 + ij.2 + 1) 0 + v / 2 ^ 32) % 2 ^ 64)

/-- The loop order of `BigInt128::square`: `i` outer from 0 to 3, `j`
inner from 0 to 3. -/
def squarePairs : List (ℕ × ℕ) :=
  [(0, 0), (0, 1), (0, 2), (0, 3),
   (1, 0), (1, 1), (1, 2), (1, 3),
   (2, 0), (2, 1), (2, 2), (2, 3),
   (3, 0), (3, 1), (3, 2), (3, 3)]

/-- `BigInt128::square()`: run the double loop over an 8-cell product
array of `uint64_t` initialized to zero, then keep the low 32 bits of the
first four cells as the new limbs. -/
def squareLimbs (d : List ℕ) : List ℕ :=
  let p := squarePairs.foldl (sqStep d) (List.replicate 8 0)
  [p.getD 0 0 % 2 ^ 32, p.getD 1 0 % 2 ^ 32, p.getD 2 0 % 2 ^ 32, p.getD 3 0 % 2 ^ 32]

/-- The 128-bit value represented by the four little-endian 32-bit limbs. -/
def toVal (d : List ℕ) : ℕ :=
  d.getD 0 0 + d.getD 1 0 * 2 ^ 32 + d.getD 2 0 * 2 ^ 64 + d.getD 3 0 * 2 ^ 96

/-- `BigInt128::mod(n)`: compare the limbs against `p1 = n >> 32` and
`p2 = n % 2^32`; when the guard holds, run the Horner-style reduction
`res = ((res * 2^32) % n + data[i] % n) % n` for `i = 3, 2, 1, 0` in
`uint128_t` arithmetic (exact here, since no intermediate reaches
`2^128`), then store `res` into the low two limbs and zero the top two;
otherwise leave the limbs untouched. -/
def modLimbs (d : List ℕ) (n : ℕ) : List ℕ :=
  let p1 := n / 2 ^ 32
  let p2 := n % 2 ^ 32
  if 0 < d.getD 3 0 ∨ 0 < d.getD 2 0 ∨ p1 < d.getD 1 0 ∨
      (d.getD 1 0 = p1 ∧ p2 < d.getD 0 0) then
    let res := [3, 2, 1, 0].foldl (fun r i => ((r * 2 ^ 32) % n + d.getD i 0 % n) % n) 0
    [res % 2 ^ 32, res / 2 ^ 32, 0, 0]
  else d

/-- Any value accepted by the `next_unit` loop is a quotient `g / Tmax`
that is different from 1, for a raw draw `g` occurring in the stream. -/
theorem nextUnitFrom_eq (Tmax : ℕ) (draws : List ℕ) (x : ℚ)
    (h : nextUnitFrom Tmax draws = some x) :
    ∃ g ∈ draws, (g : ℚ) / (Tmax : ℚ) = x ∧ (g : ℚ) / (Tmax : ℚ) ≠ 1 := by
  induction draws with
  | nil => simp [nextUnitFrom] at h
  | cons g gs ih =>
      rw [nextUnitFrom] at h
      by_cases h1 : (g : ℚ) / (Tmax : ℚ) = 1
      · rw [if_pos h1] at h
        obtain ⟨g0, hg0, hq⟩ := ih h
        exact ⟨g0, List.mem_cons_of_mem _ hg0, hq⟩
      · rw [if_neg h1] at h
        exact ⟨g, List.mem_cons_self _ _, Option.some.inj h, h1⟩

/-- Bounds for an accepted `next_unit` quotient when the raw draw is within
the representable range of `T`. -/
theorem unit_bounds (Tmax g : ℕ) (hT : 0 < Tmax) (hg : g ≤ Tmax)
    (hne : (g : ℚ) / (Tmax : ℚ) ≠ 1) :
    0 ≤ (g : ℚ) / (Tmax : ℚ) ∧ (g : ℚ) / (Tmax : ℚ) < 1 := by
  have hTQ : (0 : ℚ) < (Tmax : ℚ) := by exact_mod_cast hT
  constructor
  · positivity
  · have hle : (g : ℚ) / (Tmax : ℚ) ≤ 1 := by
      rw [div_le_one hTQ]
      exact_mod_cast hg
    exact lt_of_le_of_ne hle hne

/-- Any value returned by the `next_unit` loop lies in `[0, 1)`. -/
theorem nextUnitFrom_bounds (Tmax : ℕ) (draws : List ℕ) (x : ℚ)
    (hT : 0 < Tmax) (hb : ∀ g ∈ draws, g ≤ Tmax)
    (h : nextUnitFrom Tmax draws = some x) : 0 ≤ x ∧ x < 1 := by
  obtain ⟨g, hg, hx, hne⟩ := nextUnitFrom_eq Tmax draws x h
  rw [← hx]
  exact unit_bounds Tmax g hT (hb g hg) hne

/-- C8: `next_unit()` never returns exactly 1, and its result lies in
`[0, 1)`: each candidate is the raw draw divided by the maximum
representable value of `T`, and a candidate equal to 1 is rejected and
resampled — for every draw stream on which the rejection loop terminates. -/
theorem next_unit_never_one (Tmax : ℕ) (draws : List ℕ) (x : ℚ)
    (hT : 0 < Tmax) (hb : ∀ g ∈ draws, g ≤ Tmax)
    (h : nextUnitFrom Tmax draws = some x) :
    x ≠ 1 ∧ 0 ≤ x ∧ x < 1 := by
  have hbd := nextUnitFrom_bounds Tmax draws x hT hb h
  exact ⟨ne_of_lt hbd.2, hbd⟩

/-- Witness for C8 at `Tmax = 3` with draw stream `[3, 1]`: the first raw
draw gives quotient 1 and is rejected, the second is accepted as `1/3`. -/
theorem next_unit_never_one_witness :
    (1 / 3 : ℚ) ≠ 1 ∧ (0 : ℚ) ≤ 1 / 3 ∧ (1 / 3 : ℚ) < 1 :=
  next_unit_never_one 3 [3, 1] (1 / 3) (by decide)
    (by intro g hg; fin_cases hg <;> decide) (by norm_num [nextUnitFrom])

/-- C7 counterexample: with `Tmax = 3`, bounds `min = 0 < max = 1` and raw
draw 0, the inner `next_unit` value is 0, so `next_in_crange` accepts and
returns `0 = min`, which is not strictly greater than `min`: the result is
not confined to the open interval `(min, max)`. -/
theorem next_in_crange_returns_min_cex :
    nextInCrangeFrom 3 0 1 [0] = some 0 ∧ ¬ ((0 : ℚ) < 0 ∧ (0 : ℚ) < 1) := by
  constructor
  · norm_num [nextInCrangeFrom]
  · simp

/-- C7 amended: for `min < max`, every value returned by `next_in_crange`
lies in the half-open interval `[min, max)` — it is never equal to `max`,
but it can equal `min` (the lower end is attained when the unit draw is 0). -/
theorem next_in_crange_mem (Tmax : ℕ) (mn mx : ℚ) (draws : List ℕ) (x : ℚ)
    (hT : 0 < Tmax) (hb : ∀ g ∈ draws, g ≤ Tmax) (hlt : mn < mx)
    (h : nextInCrangeFrom Tmax mn mx draws = some x) :
    mn ≤ x ∧ x < mx ∧ x ≠ mx := by
  induction draws with
  | nil => simp [nextInCrangeFrom] at h
  | cons g gs ih =>
      have hb2 : ∀ g2 ∈ gs, g2 ≤ Tmax := fun g2 hg2 => hb g2 (List.mem_cons_of_mem _ hg2)
      rw [nextInCrangeFrom] at h
      by_cases h1 : (g : ℚ) / (Tmax : ℚ) = 1
      · rw [if_pos h1] at h
        exact ih hb2 h
      · rw [if_neg h1] at h
        by_cases h2 : (mx - mn) * ((g : ℚ) / (Tmax : ℚ)) + mn = mx
        · rw [if_pos h2] at h
          exact ih hb2 h
        · rw [if_neg h2] at h
          have hu := unit_bounds Tmax g hT (hb g (List.mem_cons_self _ _)) h1
          have hx : x = (mx - mn) * ((g : ℚ) / (Tmax : ℚ)) + mn :=
            (Option.some.inj h).symm
          have hpos : (0 : ℚ) < mx - mn := by linarith
          have hlo : mn ≤ x := by
            rw [hx]
            nlinarith [hu.1]
          have hhi : x < mx := by
            rw [hx]
            nlinarith [hu.2]
          exact ⟨hlo, hhi, ne_of_lt hhi⟩

/-- Witness for C7 at `Tmax = 3`, `min = 0`, `max = 2`, draws `[3, 0]`:
the first draw has quotient 1 and is rejected by the inner loop, the
second yields the value 0, which lies in `[0, 2)`. -/
theorem next_in_crange_mem_witness :
    (0 : ℚ) ≤ 0 ∧ (0 : ℚ) < 2 ∧ (0 : ℚ) ≠ 2 :=
  next_in_crange_mem 3 0 2 [3, 0] 0 (by decide)
    (by intro g hg; fin_cases hg <;> decide) (by norm_num)
    (by norm_num [nextInCrangeFrom])

/-- C1: for `min ≤ max < 2 ^ w` (values of the unsigned type `T` of width
`w`), `next_in_range(min, max)` returns a value in the inclusive range
`[min, max]`, and when `min = max` it returns `min` — for every raw draw
on which the `next_unit` loop terminates. -/
theorem next_in_range_mem (w mn mx : ℕ) (draws : List ℕ) (r : ℤ)
    (hw : 0 < w) (hmm : mn ≤ mx) (hmx : mx < 2 ^ w)
    (hb : ∀ g ∈ draws, g ≤ 2 ^ w - 1)
    (h : nextInRangeFrom w mn mx draws = some r) :
    ((mn : ℤ) ≤ r ∧ r ≤ (mx : ℤ)) ∧ (mn = mx → r = (mn : ℤ)) := by
  have hT : 0 < 2 ^ w - 1 := by
    have : 2 ≤ 2 ^ w := by
      calc 2 = 2 ^ 1 := by norm_num
        _ ≤ 2 ^ w := Nat.pow_le_pow_right (by norm_num) hw
    omega
  rw [nextInRangeFrom, Option.map_eq_some'] at h
  obtain ⟨u, hu, hr⟩ := h
  have hub := nextUnitFrom_bounds (2 ^ w - 1) draws u hT hb hu
  have hsz : mx - mn + 1 ≤ 2 ^ w := by omega
  rcases lt_or_eq_of_le hsz with hlt | heq
  · -- no wraparound: the range factor is `max - min + 1` itself
    have hrs : rangeSize w mn mx = mx - mn + 1 := by
      rw [rangeSize, Nat.mod_eq_of_lt hlt]
    rw [hrs] at hr
    set n : ℕ := mx - mn + 1 with hn
    have hnpos : (0 : ℚ) < (n : ℚ) := by positivity
    have hfl0 : 0 ≤ ⌊u * (n : ℚ)⌋ :=
      Int.floor_nonneg.mpr (mul_nonneg hub.1 (le_of_lt hnpos))
    have hfln : ⌊u * (n : ℚ)⌋ < (n : ℤ) := by
      rw [Int.floor_lt]
      push_cast
      nlinarith [hub.1, hub.2]
    have hcast : (n : ℤ) = (mx : ℤ) - (mn : ℤ) + 1 := by
      rw [hn]
      push_cast [hmm]
      ring
    constructor
    · omega
    · intro hemm
      have hmncast : (mn : ℤ) = (mx : ℤ) := by exact_mod_cast hemm
      omega
  · -- full range of `T`: `max - min + 1` wraps to 0 and the result is `min`
    have hrs : rangeSize w mn mx = 0 := by
      rw [rangeSize, heq, Nat.mod_self]
    rw [hrs] at hr
    simp at hr
    constructor
    · omega
    · intro _
      omega

/-- Witness for C1 at `w = 2`, `min = 1`, `max = 2`, draw `[2]`: the unit
value is `2/3`, the range factor is 2, and the result is
`floor(4/3) + 1 = 2`, inside `[1, 2]`. -/
theorem next_in_range_mem_witness :
    (((1 : ℕ) : ℤ) ≤ 2 ∧ (2 : ℤ) ≤ ((2 : ℕ) : ℤ)) ∧ ((1 : ℕ) = 2 → (2 : ℤ) = ((1 : ℕ) : ℤ)) :=
  next_in_range_mem 2 1 2 [2] 2 (by decide) (by decide) (by decide)
    (by intro g hg; fin_cases hg <;> decide)
    (by norm_num [nextInRangeFrom, nextUnitFrom, rangeSize])

/-- The cumulative array has the same length as the weight list. -/
theorem cumulFrom_length (p : ℚ) (ws : List ℚ) :
    (cumulFrom p ws).length = ws.length := by
  induction ws generalizing p with
  | nil => rfl
  | cons x xs ih => simp [cumulFrom, ih]

/-- Closed form of the cumulative array: cell `k` is the starting value
plus the sum of the first `k + 1` weights. -/
theorem cumulFrom_getD (ws : List ℚ) : ∀ (p : ℚ) (k : ℕ), k < ws.length →
    (cumulFrom p ws).getD k 0 = p + (ws.take (k + 1)).sum := by
  induction ws with
  | nil => intro p k hk; simp at hk
  | cons x xs ih =>
      intro p k hk
      cases k with
      | zero => simp [cumulFrom]
      | succ k2 =>
          rw [cumulFrom, List.getD_cons_succ, ih (p + x) k2 (by simpa using hk)]
          simp [List.take_succ_cons]
          ring

/-- The sum of a prefix of a list of nonnegative entries is nonnegative. -/
theorem take_sum_nonneg (ws : List ℚ) (hnn : ∀ x ∈ ws, 0 ≤ x) (n : ℕ) :
    0 ≤ (ws.take n).sum := by
  induction ws generalizing n with
  | nil => simp
  | cons x xs ih =>
      cases n with
      | zero => simp
      | succ n2 =>
          rw [List.take_succ_cons, List.sum_cons]
          have h1 : 0 ≤ x := hnn x (List.mem_cons_self _ _)
          have h2 := ih (fun y hy => hnn y (List.mem_cons_of_mem _ hy)) n2
          linarith

/-- Prefix sums of a list of nonnegative entries are monotone in the
prefix length. -/
theorem take_sum_mono (ws : List ℚ) (hnn : ∀ x ∈ ws, 0 ≤ x) :
    ∀ m n : ℕ, m ≤ n → (ws.take m).sum ≤ (ws.take n).sum := by
  induction ws with
  | nil => intro m n _; simp
  | cons x xs ih =>
      intro m n hmn
      cases m with
      | zero =>
          simp only [List.take_zero, List.sum_nil]
          cases n with
          | zero => simp
          | succ n2 =>
              rw [List.take_succ_cons, List.sum_cons]
              have h1 : 0 ≤ x := hnn x (List.mem_cons_self _ _)
              have h2 := take_sum_nonneg xs (fun y hy => hnn y (List.mem_cons_of_mem _ hy)) n2
              linarith
      | succ m2 =>
          cases n with
          | zero => omega
          | succ n2 =>
              rw [List.take_succ_cons, List.take_succ_cons, List.sum_cons, List.sum_cons]
              have := ih (fun y hy => hnn y (List.mem_cons_of_mem _ hy)) m2 n2 (by omega)
              linarith

/-- Extending a prefix by one element adds that element to the sum. -/
theorem take_succ_sum (ws : List ℚ) : ∀ k : ℕ, k < ws.length →
    (ws.take (k + 1)).sum = (ws.take k).sum + ws.getD k 0 := by
  induction ws with
  | nil => intro k hk; simp at hk
  | cons x xs ih =>
      intro k hk
      cases k with
      | zero => simp
      | succ k2 =>
          rw [List.take_succ_cons, List.take_succ_cons, List.sum_cons, List.sum_cons,
            List.getD_cons_succ, ih k2 (by simpa using hk)]
          ring

/-- The cumulative array of nonnegative weights is monotone. -/
theorem cumulative_mono (ws : List ℚ) (hnn : ∀ x ∈ ws, 0 ≤ x)
    (i j : ℕ) (hij : i ≤ j) (hj : j < ws.length) :
    (cumulative ws).getD i 0 ≤ (cumulative ws).getD j 0 := by
  rw [cumulative, cumulFrom_getD ws 0 i (lt_of_le_of_lt hij hj),
    cumulFrom_getD ws 0 j hj]
  have := take_sum_mono ws hnn (i + 1) (j + 1) (by omega)
  linarith

/-- The last cell of the cumulative array is the total weight. -/
theorem totalWeight_eq_sum (ws : List ℚ) (hne : ws ≠ []) :
    totalWeight ws = ws.sum := by
  have hlen : 0 < ws.length := List.length_pos.mpr hne
  rw [totalWeight, cumulative, cumulFrom_getD ws 0 (ws.length - 1) (by omega)]
  have : ws.length - 1 + 1 = ws.length := by omega
  rw [this, List.take_length]
  ring

/-- Characterization of `upperBoundGo` on a window of a monotone array:
every index below the result does not exceed `val`, and the result (when
in bounds) does. -/
theorem ubGo_spec (arr : List ℚ) (val : ℚ)
    (hmono : ∀ i j, i ≤ j → j < arr.length → arr.getD i 0 ≤ arr.getD j 0) :
    ∀ count base, base + count ≤ arr.length →
    (∀ i, i < base → ¬ val < arr.getD i 0) →
    (∀ i, base + count ≤ i → i < arr.length → val < arr.getD i 0) →
    (∀ i, i < upperBoundGo arr val base count → ¬ val < arr.getD i 0) ∧
      (upperBoundGo arr val base count < arr.length →
        val < arr.getD (upperBoundGo arr val base count) 0) ∧
      upperBoundGo arr val base count ≤ arr.length := by
  intro count
  induction count using Nat.strong_induction_on with
  | _ count ih =>
      intro base hlen hleft hright
      rw [upperBoundGo]
      by_cases h0 : count = 0
      · rw [if_pos h0]
        subst h0
        exact ⟨hleft, fun hb => hright base (by omega) hb, by omega⟩
      · rw [if_neg h0]
        have hcx : count / 2 < count := Nat.div_lt_self (Nat.pos_of_ne_zero h0) (by norm_num)
        by_cases hcmp : val < arr.getD (base + count / 2) 0
        · rw [if_pos hcmp]
          refine ih (count / 2) hcx base (by omega) hleft ?_
          intro i hi hilen
          exact lt_of_lt_of_le hcmp (hmono (base + count / 2) i hi hilen)
        · rw [if_neg hcmp]
          refine ih (count - count / 2 - 1) (by omega) (base + count / 2 + 1)
            (by omega) ?_ ?_
          · intro i hi
            by_cases hib : i < base
            · exact hleft i hib
            · intro hcon
              have hle : arr.getD i 0 ≤ arr.getD (base + count / 2) 0 :=
                hmono i (base + count / 2) (by omega) (by omega)
              exact hcmp (lt_of_lt_of_le hcon hle)
          · intro i hi hilen
            exact hright i (by omega) hilen

/-- Characterization of the spec-side linear search `firstExceed`. -/
theorem firstExceed_spec (cw : List ℚ) (u : ℚ) :
    (∀ i, i < firstExceed cw u → ¬ u < cw.getD i 0) ∧
      (firstExceed cw u < cw.length → u < cw.getD (firstExceed cw u) 0) ∧
      firstExceed cw u ≤ cw.length := by
  induction cw with
  | nil => simp [firstExceed]
  | cons c cs ih =>
      rw [firstExceed]
      by_cases hc : u < c
      · rw [if_pos hc]
        exact ⟨fun i hi => absurd hi (by omega), fun _ => hc, by simp⟩
      · rw [if_neg hc]
        refine ⟨?_, ?_, by simpa using ih.2.2⟩
        · intro i hi
          cases i with
          | zero => simpa using hc
          | succ i2 => rw [List.getD_cons_succ]; exact ih.1 i2 (by omega)
        · intro hlt
          rw [List.getD_cons_succ]
          exact ih.2.1 (by simpa using hlt)

/-- Two indices both satisfying the upper-bound characterization agree. -/
theorem ub_unique (arr : List ℚ) (val : ℚ) (r1 r2 : ℕ)
    (h1l : ∀ i, i < r1 → ¬ val < arr.getD i 0)
    (h1r : r1 < arr.length → val < arr.getD r1 0) (h1b : r1 ≤ arr.length)
    (h2l : ∀ i, i < r2 → ¬ val < arr.getD i 0)
    (h2r : r2 < arr.length → val < arr.getD r2 0) (h2b : r2 ≤ arr.length) :
    r1 = r2 := by
  rcases lt_trichotomy r1 r2 with h | h | h
  · exact absurd (h1r (by omega)) (h2l r1 h)
  · exact h
  · exact absurd (h2r (by omega)) (h1l r2 h)

/-- C4: for valid weighted-choice input with nonnegative weights and a
strictly positive total, the element returned is the one at the first
index whose cumulative weight strictly exceeds the draw
`u = next_unit() * total`; that index is in bounds, and it is never an
index whose weight is zero — for any unit draw in `[0, 1)`. -/
theorem weighted_choice_first_exceed {α : Type} (seq : List α) (ws : List ℚ)
    (unit : ℚ) (hlen : seq.length = ws.length) (hpos : 0 < seq.length)
    (hnn : ∀ x ∈ ws, 0 ≤ x) (hsum : 0 < ws.sum)
    (hu0 : 0 ≤ unit) (hu1 : unit < 1) :
    choiceWeighted seq ws unit =
      Except.ok (seq.get? (firstExceed (cumulative ws) (unit * totalWeight ws))) ∧
    firstExceed (cumulative ws) (unit * totalWeight ws) < seq.length ∧
    (∀ k, k < ws.length → ws.getD k 0 = 0 →
      firstExceed (cumulative ws) (unit * totalWeight ws) ≠ k) := by
  have hwne : ws ≠ [] := List.length_pos.mp (by omega)
  have hcwlen : (cumulative ws).length = ws.length := cumulFrom_length 0 ws
  have htw : totalWeight ws = ws.sum := totalWeight_eq_sum ws hwne
  set u := unit * totalWeight ws with hudef
  set arr := cumulative ws with harr
  have hu_lt : u < ws.sum := by
    rw [hudef, htw]
    nlinarith
  have hu_nn : 0 ≤ u := by
    rw [hudef, htw]
    exact mul_nonneg hu0 (le_of_lt hsum)
  have hmono : ∀ i j, i ≤ j → j < arr.length → arr.getD i 0 ≤ arr.getD j 0 := by
    intro i j hij hj
    have hj2 : j < ws.length := by omega
    rw [harr]
    exact cumulative_mono ws hnn i j hij hj2
  have hub := ubGo_spec arr u hmono arr.length 0 (by omega)
    (fun i hi => absurd hi (by omega))
    (fun i hi hilen => absurd hilen (by omega))
  have hfe := firstExceed_spec arr u
  have hlast : arr.getD (ws.length - 1) 0 = ws.sum := by
    have : arr.getD (ws.length - 1) 0 = totalWeight ws := rfl
    rw [this, htw]
  have hrlt : firstExceed arr u < seq.length := by
    rcases lt_or_eq_of_le hfe.2.2 with h | h
    · omega
    · exfalso
      have hidx : ws.length - 1 < firstExceed arr u := by omega
      have hno := hfe.1 _ hidx
      rw [hlast] at hno
      exact hno hu_lt
  have hequal : upperBoundGo arr u 0 arr.length = firstExceed arr u :=
    ub_unique arr u _ _ hub.1 hub.2.1 hub.2.2 hfe.1 hfe.2.1 hfe.2.2
  refine ⟨?_, hrlt, ?_⟩
  · rw [choiceWeighted, if_neg (by omega), if_neg (by omega), selectedIndex,
      upperBound]
    rw [← harr, ← hudef, hequal]
  · intro k hk hwk heq
    cases k with
    | zero =>
        have h0 : arr.getD 0 0 = ws.getD 0 0 := by
          rw [harr, cumulative, cumulFrom_getD ws 0 0 (by omega),
            take_succ_sum ws 0 (by omega)]
          simp
        have hlt0 := hfe.2.1 (by omega)
        rw [heq, h0, hwk] at hlt0
        exact absurd hlt0 (by simpa using hu_nn)
    | succ k2 =>
        have hstep : arr.getD (k2 + 1) 0 = arr.getD k2 0 + ws.getD (k2 + 1) 0 := by
          rw [harr, cumulative, cumulFrom_getD ws 0 (k2 + 1) hk,
            cumulFrom_getD ws 0 k2 (by omega), take_succ_sum ws (k2 + 1) hk]
          ring
        have hlt1 := hfe.2.1 (by omega)
        rw [heq, hstep, hwk, add_zero] at hlt1
        exact hfe.1 k2 (by omega) hlt1

/-- Witness for C4: sequence `[10, 20, 30]`, weights `[1, 0, 3]`, unit
draw `1/2` (so `u = 2`): the selected index is 2, in bounds, avoiding
the zero-weight middle index. -/
theorem weighted_choice_first_exceed_witness :
    choiceWeighted ([10, 20, 30] : List ℕ) [1, 0, 3] (1 / 2) =
      Except.ok (([10, 20, 30] : List ℕ).get?
        (firstExceed (cumulative [1, 0, 3]) ((1 / 2) * totalWeight [1, 0, 3]))) ∧
    firstExceed (cumulative [1, 0, 3]) ((1 / 2) * totalWeight [1, 0, 3]) <
      ([10, 20, 30] : List ℕ).length ∧
    (∀ k, k < ([1, 0, 3] : List ℚ).length → ([1, 0, 3] : List ℚ).getD k 0 = 0 →
      firstExceed (cumulative [1, 0, 3]) ((1 / 2) * totalWeight [1, 0, 3]) ≠ k) :=
  weighted_choice_first_exceed [10, 20, 30] [1, 0, 3] (1 / 2) rfl (by norm_num)
    (by intro x hx; fin_cases hx <;> norm_num)
    (by norm_num [List.sum_cons, List.sum_nil]) (by norm_num) (by norm_num)

/-- C5: the weighted `choice` throws `std::invalid_argument` exactly when
the sequence and weight lengths differ or the sequence is empty, and on
those inputs the outcome is decided before the random draw: it does not
depend on the unit value. -/
theorem weighted_choice_error_iff {α : Type} (seq : List α) (ws : List ℚ)
    (u1 u2 : ℚ) :
    ((∃ e, choiceWeighted seq ws u1 = Except.error e) ↔
      (seq.length ≠ ws.length ∨ seq.length = 0)) ∧
    (seq.length ≠ ws.length ∨ seq.length = 0 →
      choiceWeighted seq ws u1 = choiceWeighted seq ws u2) := by
  constructor
  · constructor
    · rintro ⟨e, he⟩
      by_contra hcon
      push_neg at hcon
      rw [choiceWeighted, if_neg (by omega), if_neg (by omega)] at he
      exact Except.noConfusion he
    · intro h
      by_cases hm : seq.length ≠ ws.length
      · rw [choiceWeighted, if_pos hm]
        exact ⟨_, rfl⟩
      · rw [choiceWeighted, if_neg hm, if_pos (by omega)]
        exact ⟨_, rfl⟩
  · intro h
    by_cases hm : seq.length ≠ ws.length
    · rw [choiceWeighted, choiceWeighted, if_pos hm, if_pos hm]
    · rw [choiceWeighted, choiceWeighted, if_neg hm, if_neg hm,
        if_pos (by omega), if_pos (by omega)]

/-- Witness for C5: a sequence of length 3 with a weight list of length 2
produces an `std::invalid_argument` outcome. -/
theorem weighted_choice_error_iff_witness :
    ∃ e, choiceWeighted ([1, 2, 3] : List ℕ) [1, 1] (0 : ℚ) = Except.error e :=
  (weighted_choice_error_iff ([1, 2, 3] : List ℕ) [1, 1] 0 0).1.mpr
    (Or.inl (by norm_num))

/-- C10: on a valid call (equal, non-zero lengths) in which every weight
is zero, the draw `u = next_unit() * total` is exactly 0, no cumulative
weight strictly exceeds it, the upper-bound search returns the
past-the-end position — the index equals the sequence length — and the
element access is one past the end of the sequence. -/
theorem weighted_choice_all_zero_oob {α : Type} (seq : List α) (ws : List ℚ)
    (unit : ℚ) (hlen : seq.length = ws.length) (hpos : 0 < seq.length)
    (hz : ∀ x ∈ ws, x = 0) :
    unit * totalWeight ws = 0 ∧
    selectedIndex ws unit = seq.length ∧
    choiceWeighted seq ws unit = Except.ok none := by
  have hwne : ws ≠ [] := List.length_pos.mp (by omega)
  have hsum0 : ws.sum = 0 := List.sum_eq_zero hz
  have htw : totalWeight ws = 0 := by rw [totalWeight_eq_sum ws hwne, hsum0]
  have hu : unit * totalWeight ws = 0 := by rw [htw, mul_zero]
  have hcwlen : (cumulative ws).length = ws.length := cumulFrom_length 0 ws
  have harrz : ∀ i, i < (cumulative ws).length → (cumulative ws).getD i 0 = 0 := by
    intro i hi
    rw [cumulative, cumulFrom_getD ws 0 i (by omega),
      List.sum_eq_zero (fun x hx => hz x (List.take_subset _ _ hx))]
    ring
  have hmono : ∀ i j, i ≤ j → j < (cumulative ws).length →
      (cumulative ws).getD i 0 ≤ (cumulative ws).getD j 0 := by
    intro i j hij hj
    rw [harrz i (by omega), harrz j hj]
  have hub := ubGo_spec (cumulative ws) (unit * totalWeight ws) hmono
    (cumulative ws).length 0 (by omega)
    (fun i hi => absurd hi (by omega))
    (fun i hi hilen => absurd hilen (by omega))
  have hr : upperBoundGo (cumulative ws) (unit * totalWeight ws) 0
      (cumulative ws).length = (cumulative ws).length := by
    rcases lt_or_eq_of_le hub.2.2 with h | h
    · exfalso
      have hcmp := hub.2.1 h
      rw [harrz _ h, hu] at hcmp
      exact absurd hcmp (by norm_num)
    · exact h
  have hsel : selectedIndex ws unit = seq.length := by
    rw [selectedIndex, upperBound, hr, hcwlen, hlen]
  refine ⟨hu, hsel, ?_⟩
  rw [choiceWeighted, if_neg (by omega), if_neg (by omega), hsel,
    List.get?_length]

/-- Witness for C10: sequence `[5]` with weights `[0]` and unit draw
`1/3`: the draw is 0, the selected index is the sequence length 1, and
the access is past the end. -/
theorem weighted_choice_all_zero_oob_witness :
    (1 / 3 : ℚ) * totalWeight [0] = 0 ∧
    selectedIndex [0] (1 / 3) = ([5] : List ℕ).length ∧
    choiceWeighted ([5] : List ℕ) [0] (1 / 3) = Except.ok none :=
  weighted_choice_all_zero_oob ([5] : List ℕ) [0] (1 / 3) rfl (by norm_num)
    (by intro x hx; fin_cases hx; norm_num)

/-- C6 counterexample: unweighted `choice` on an empty sequence (width
`w = 32`, raw draw 0) does not signal any error: `last - first - 1`
wraps to `2^32 - 1`, `max - min + 1` wraps to 0, the computed index is 0,
and the call dereferences `first` on an empty sequence — an out-of-bounds
access (`some none`), not a failure signal. -/
theorem choice_empty_no_error_cex :
    choiceUnweightedFrom 32 ([] : List ℕ) [0] = some none := by
  norm_num [choiceUnweightedFrom, nextInRangeFrom, nextUnitFrom, rangeSize]

/-- C6 amended: unweighted `choice` performs no emptiness check; on an
empty sequence, whenever the inner `next_unit` loop terminates, it
returns an out-of-bounds element access (undefined behavior in C++)
rather than signalling an error. -/
theorem choice_empty_oob {α : Type} (w : ℕ) (draws : List ℕ) (x : ℚ)
    (h : nextUnitFrom (2 ^ w - 1) draws = some x) :
    choiceUnweightedFrom w ([] : List α) draws = some none := by
  rw [choiceUnweightedFrom, nextInRangeFrom, h]
  simp

/-- Witness for the amended C6 at `w = 32` with raw draw 0. -/
theorem choice_empty_oob_witness :
    choiceUnweightedFrom 32 ([] : List ℕ) [0] = some none :=
  choice_empty_oob 32 [0] 0 (by norm_num [nextUnitFrom])

/-- Moving the element at a valid index to the front is a permutation. -/
theorem perm_cons_eraseIdx {α : Type} :
    ∀ (v : List α) (d : ℕ) (a : α), v.get? d = some a →
      (a :: v.eraseIdx d).Perm v := by
  intro v
  induction v with
  | nil => intro d a h; simp at h
  | cons b t ih =>
      intro d a h
      cases d with
      | zero =>
          simp at h
          rw [h, List.eraseIdx_cons_zero]
      | succ d2 =>
          rw [List.get?_cons_succ] at h
          rw [List.eraseIdx_cons_succ]
          exact List.Perm.trans (List.Perm.swap b a _)
            (List.Perm.cons b (ih d2 a h))

/-- C9: whenever every drawn index is in bounds of the remaining pool
(so `shuffle_array` completes without an out-of-bounds read), the output
of `shuffle` is a permutation of the input: the multiset of elements is
unchanged. -/
theorem shuffle_perm {α : Type} (draws : List ℕ) :
    ∀ (v out : List α), shuffleArray v draws = some out → out.Perm v := by
  induction draws with
  | nil =>
      intro v out h
      rw [shuffleArray] at h
      by_cases he : v.isEmpty
      · rw [if_pos he] at h
        rw [List.isEmpty_iff] at he
        rw [he]
        exact (Option.some.inj h) ▸ List.Perm.refl _
      · rw [if_neg he] at h
        exact Option.noConfusion h
  | cons d ds ih =>
      intro v out h
      rw [shuffleArray] at h
      cases hv : v.get? d with
      | none => rw [hv] at h; exact Option.noConfusion h
      | some a =>
          rw [hv, Option.map_eq_some'] at h
          obtain ⟨out2, h2, hout⟩ := h
          rw [← hout]
          exact List.Perm.trans (List.Perm.cons a (ih _ _ h2))
            (perm_cons_eraseIdx v d a hv)

/-- Witness for C9: shuffling `[1, 2, 3, 4]` with drawn indices
`[2, 0, 0, 0]` yields `[3, 1, 2, 4]`, a permutation of the input. -/
theorem shuffle_perm_witness :
    ([3, 1, 2, 4] : List ℕ).Perm [1, 2, 3, 4] :=
  shuffle_perm [2, 0, 0, 0] [1, 2, 3, 4] [3, 1, 2, 4] (by decide)

/-- C2 failing input: `BigInt128::mod` skips the reduction when the value
equals the modulus, because the guard tests strict limb-wise greater-than.
For limbs `[7, 0, 0, 0]` and `n = 7` the struct is left holding 7, but
`7 mod 7 = 0`: the result does not represent the value modulo `n`. -/
theorem mod_at_n_unchanged :
    modLimbs [7, 0, 0, 0] 7 = [7, 0, 0, 0] ∧
    toVal (modLimbs [7, 0, 0, 0] 7) ≠ toVal [7, 0, 0, 0] % 7 := by
  decide

/-- C3 failing input: `BigInt128::square` double-counts carries — after
`product[i+j+1] += product[i+j] >> 32`, the high bits of `product[i+j]`
are not cleared, so a later visit to the same position propagates them
again.  For limbs `[2^31, 2^31, 0, 0]` (value `2^31 * (1 + 2^32)`), the
true square modulo `2^128` has limbs `[0, 2^30, 2^31, 2^30]`, but the
code produces `[0, 2^30, 2^31 + 2^30, 2^31]`. -/
theorem square_carry_double_count :
    squareLimbs [2 ^ 31, 2 ^ 31, 0, 0] = [0, 2 ^ 30, 2 ^ 31 + 2 ^ 30, 2 ^ 31] ∧
    toVal (squareLimbs [2 ^ 31, 2 ^ 31, 0, 0]) ≠
      toVal [2 ^ 31, 2 ^ 31, 0, 0] ^ 2 % 2 ^ 128 := by
  decide
